import Mathlib

/-!
Verification development for the Hecto terminal text editor
(single source file `src/main.rs`).

The editor's document model is embedded shallowly:

* a grapheme is modelled as a single Unicode scalar value together with its
  terminal display width (the claims under study never involve
  multi-code-point grapheme clusters, so `graphemes(true)` segmentation is
  the identity on code points here, and segmentation of a concatenation is
  the concatenation of the segmentations);
* Rust `String`s are byte vectors; byte-oriented operations
  (`str::find`, `str::rfind`, `str::len`) are modelled on the UTF-8 byte
  lists of those code points;
* `Row` is embedded field by field (`string`, `highlighting`, `len`,
  `display_len`) and each mutating operation mirrors the Rust control flow,
  including its recomputations and the operations it does *not* perform;
* the search state machine of `Editor::find_callback` is embedded for the
  forward direction (the only direction the `Enter`/`'n'` handlers set),
  with the row scan loop driven by explicit fuel (`rows.length + 1` bounds
  the number of iterations the Rust loop performs before its full-lap
  break fires in the forward direction);
* character classification (`is_alphanumeric`, `is_alphabetic`) is modelled
  with the ASCII classifiers; this affects only which highlight tags
  non-ASCII words receive, never the length of the produced tag array,
  which is what the claims are about.
-/

/-- The highlight tag enumeration of the source (`HighlightType`). -/
inductive HighlightType where
  | Normal
  | Number
  | String
  | CharLiteral
  | Comment
  | PrimaryKeywords
  | SecondaryKeywords
deriving DecidableEq, Repr

/-- UTF-8 encoding of a Unicode scalar value, as a list of byte values. -/
def utf8Bytes (n : Nat) : List Nat :=
  if n < 128 then [n]
  else if n < 2048 then [192 + n / 64, 128 + n % 64]
  else if n < 65536 then [224 + n / 4096, 128 + n / 64 % 64, 128 + n % 64]
  else [240 + n / 262144, 128 + n / 4096 % 64, 128 + n / 64 % 64, 128 + n % 64]

/-- One grapheme of a row: a single code point `c` plus its display width
`w` (the value `unicode_width::UnicodeWidthStr::width` assigns to it). -/
structure Grapheme where
  c : Char
  w : Nat
deriving DecidableEq, Repr

/-- The UTF-8 bytes of a grapheme inside the row's `String`. -/
def Grapheme.bytes (g : Grapheme) : List Nat := utf8Bytes g.c.toNat

/-- The UTF-8 byte list of a query string (Rust `&str` contents). -/
def strBytes (q : List Char) : List Nat := (q.map (fun c => utf8Bytes c.toNat)).flatten

/-- The single-quote character, used by the tokenizer's char-literal rule. -/
def squote : Char := Char.ofNat 39

/-- Word characters of `Row::get_word_at` (`is_alphanumeric() || == '_'`). -/
def isWordChar (c : Char) : Bool := c.isAlphanum || c = '_'

/-- The primary keyword set of `is_primary_keyword`. -/
def primaryKeywords : List (List Char) :=
  ["if", "else", "fn", "for", "while", "match", "const", "static", "struct",
   "enum", "impl", "trait", "type", "mod", "pub", "use", "extern", "crate"].map
    String.toList

/-- The secondary keyword set of `is_secondary_keyword`. -/
def secondaryKeywords : List (List Char) :=
  ["let", "mut", "ref", "return", "self", "Self", "where", "async", "await",
   "move", "dyn", "box", "in", "as", "break", "continue", "loop"].map
    String.toList

/-- `is_primary_keyword` on a word given as a character list. -/
def isPrimaryKw (w : List Char) : Bool := primaryKeywords.contains w

/-- `is_secondary_keyword` on a word given as a character list. -/
def isSecondaryKw (w : List Char) : Bool := secondaryKeywords.contains w

/-- `Row::get_word_at`: succeeds when the previous character (if any) is not
a word character and the current character is alphabetic; the word is the
maximal word-character span starting here. -/
def wordAt (prevC : Option Char) (c : Char) (rest : List Char) : Option (List Char) :=
  if (match prevC with | some p => isWordChar p | none => false) then none
  else if c.isAlpha then some (c :: rest.takeWhile isWordChar) else none

/-- The scan loop of `Row::update_syntax`, embedded with explicit fuel
(`fuel = length of the character list` always suffices, as every iteration
consumes at least one character).  The parameters after the character list
are the `in_string` flag, the `in_comment` flag, and the previous character
of the array (`None` at index 0), which `get_word_at` inspects. -/
def updateSyntaxAux : Nat → List Char → Bool → Bool → Option Char → List HighlightType
  | 0, _, _, _, _ => []
  | _, [], _, _, _ => []
  | fuel + 1, c :: rest, inStr, inCom, prevC =>
    if inCom then
      if c = '*' ∧ rest.head? = some '/' then
        .Comment :: .Comment :: updateSyntaxAux fuel rest.tail inStr false (some '/')
      else
        .Comment :: updateSyntaxAux fuel rest inStr true (some c)
    else if c = '/' ∧ rest.head? = some '*' then
      .Comment :: .Comment :: updateSyntaxAux fuel rest.tail inStr true (some '*')
    else if c = '"' then
      .String :: updateSyntaxAux fuel rest (!inStr) inCom (some c)
    else if inStr then
      .String :: updateSyntaxAux fuel rest inStr inCom (some c)
    else if c = squote then
      let pre := rest.takeWhile (fun d => !(d == squote))
      let post := rest.drop pre.length
      List.replicate (pre.length + 2) .CharLiteral ++
        updateSyntaxAux fuel post.tail inStr inCom (some squote)
    else if c.isDigit then
      .Number :: updateSyntaxAux fuel rest inStr inCom (some c)
    else if c = '/' ∧ rest.head? = some '/' then
      List.replicate (rest.length + 1) .Comment
    else
      match wordAt prevC c rest with
      | some w =>
        if isPrimaryKw w then
          List.replicate w.length .PrimaryKeywords ++
            updateSyntaxAux fuel ((c :: rest).drop w.length) inStr inCom w.getLast?
        else if isSecondaryKw w then
          List.replicate w.length .SecondaryKeywords ++
            updateSyntaxAux fuel ((c :: rest).drop w.length) inStr inCom w.getLast?
        else
          .Normal :: updateSyntaxAux fuel rest inStr inCom (some c)
      | none => .Normal :: updateSyntaxAux fuel rest inStr inCom (some c)

/-- `Row::update_syntax`: recompute the highlight tag array from scratch. -/
def updateSyntax (cs : List Char) : List HighlightType :=
  updateSyntaxAux cs.length cs false false none

/-- The `Row` struct: text (as its grapheme list), per-character highlight
array, cached grapheme count `len`, cached display width `display_len`. -/
structure Row where
  string : List Grapheme
  highlighting : List HighlightType
  len : Nat
  display_len : Nat
deriving DecidableEq, Repr

/-- The characters of a row's text. -/
def Row.chars (r : Row) : List Char := r.string.map Grapheme.c

/-- `Row::new`: counts graphemes, measures display width, runs the
tokenizer. -/
def Row.new (s : List Grapheme) : Row :=
  { string := s
    highlighting := updateSyntax (s.map Grapheme.c)
    len := s.length
    display_len := (s.map Grapheme.w).sum }

/-- Well-formedness of the cached grapheme count (`len` agrees with the
actual grapheme count of the text). -/
def Row.wf (r : Row) : Prop := r.len = r.string.length

/-- Well-formedness of the cached display width. -/
def Row.wfW (r : Row) : Prop := r.display_len = (r.string.map Grapheme.w).sum

/-- `Row::insert`: `at >= len` appends and bumps the cached fields;
otherwise the string is rebuilt grapheme by grapheme with the new character
placed before index `at`, and `len`/`display_len` are recomputed from the
rebuilt string.  The highlight array is NOT touched by either branch. -/
def Row.insert (r : Row) (a : Nat) (g : Grapheme) : Row :=
  if r.len ≤ a then
    { r with string := r.string ++ [g]
             len := r.len + 1
             display_len := r.display_len + g.w }
  else
    let s' := if a < r.string.length
      then r.string.take a ++ g :: r.string.drop a
      else r.string
    { r with string := s'
             len := s'.length
             display_len := (s'.map Grapheme.w).sum }

/-- `Row::delete`: no-op when `at >= len`; otherwise rebuilds the string
keeping every grapheme except index `at`, recomputing `len` and
`display_len`.  The highlight array is NOT touched. -/
def Row.delete (r : Row) (a : Nat) : Row :=
  if r.len ≤ a then r
  else
    let s' := r.string.take a ++ r.string.drop (a + 1)
    { r with string := s'
             len := s'.length
             display_len := (s'.map Grapheme.w).sum }

/-- `Row::append`: concatenates the text, adds the cached fields, and
re-runs the tokenizer on the merged row. -/
def Row.append (r other : Row) : Row :=
  let s' := r.string ++ other.string
  { string := s'
    len := r.len + other.len
    display_len := r.display_len + other.display_len
    highlighting := updateSyntax (s'.map Grapheme.c) }

/-- `Row::split`: the first component keeps graphemes with index `< at`
(with `len`/`display_len` recomputed and the tokenizer re-run); the second
component is `Row::new` of the remaining graphemes. -/
def Row.split (r : Row) (a : Nat) : Row × Row :=
  let fst := r.string.take a
  ({ string := fst
     len := fst.length
     display_len := (fst.map Grapheme.w).sum
     highlighting := updateSyntax (fst.map Grapheme.c) },
   Row.new (r.string.drop a))

/-- Rust `str::find` for a pattern `q` over a byte list, returning the byte
index of the first occurrence (`some 0` for the empty pattern). -/
def byteFindAux (q : List Nat) : List Nat → Option Nat
  | [] => if q.isPrefixOf ([] : List Nat) then some 0 else none
  | h :: t =>
    if q.isPrefixOf (h :: t) then some 0
    else (byteFindAux q t).map (· + 1)

/-- Rust `str::rfind` for a pattern `q` over a byte list, returning the byte
index of the last occurrence. -/
def byteRFindAux (q : List Nat) : List Nat → Option Nat
  | [] => if q.isPrefixOf ([] : List Nat) then some 0 else none
  | h :: t =>
    match (byteRFindAux q t).map (· + 1) with
    | some i => some i
    | none => if q.isPrefixOf (h :: t) then some 0 else none

/-- The UTF-8 bytes of the row text from grapheme index `a` on
(`self.string.graphemes(true).skip(at).collect::<String>()`). -/
def rowBytesFrom (r : Row) (a : Nat) : List Nat :=
  ((r.string.drop a).map Grapheme.bytes).flatten

/-- `Row::search`: `None` when `at > len`; otherwise a byte-level
`str::find` of the query in the suffix starting at grapheme `at`, whose
result `match_index` (a byte offset) is converted through
`take(at + match_index)` on the graphemes followed by a grapheme count,
yielding `min (at + match_index) (grapheme count)`. -/
def Row.search (r : Row) (q : List Char) (a : Nat) : Option Nat :=
  if r.len < a then none
  else
    match byteFindAux (strBytes q) (rowBytesFrom r a) with
    | some i => some (min (a + i) r.string.length)
    | none => none

/-- Convenience: a row of ASCII text, each character one grapheme of
display width 1. -/
def asciiGr (c : Char) : Grapheme := ⟨c, 1⟩

/-- The grapheme list of an ASCII string. -/
def grs (s : String) : List Grapheme := s.toList.map asciiGr

/-- `Row::new` on an ASCII string. -/
def mkRow (s : String) : Row := Row.new (grs s)

/-- Cursor / match coordinates (`Position { x, y }`). -/
structure Position where
  x : Nat
  y : Nat
deriving DecidableEq, Repr

/-- The mutable search state (`SearchState`), without the replace text. -/
structure SearchSt where
  lastMatch : Option Position
  direction : Int
deriving DecidableEq, Repr

/-- Result messages of a `find_callback` pass: a match was found, or the
"not found" error message was shown. -/
inductive FindMsg where
  | found
  | notFound
deriving DecidableEq, Repr

/-- The per-row computation of the backward direction in `find_callback`
(lines 857-859): take the first `x - 1` graphemes (`x` when `x = 0`),
collect them into a string, `rfind` the query in it, and return the byte
index plus one. -/
def backwardRowSearch (r : Row) (q : List Char) (x : Nat) : Option Nat :=
  let start := if 0 < x then x - 1 else 0
  (byteRFindAux (strBytes q) (((r.string.take start).map Grapheme.bytes).flatten)).map
    (· + 1)

/-- The document scan loop of `find_callback` for the forward direction
(the direction installed by the `Enter`/`'n'`/`Right`/`Down` handlers):
search the current row from `current.x`; on failure move to row
`(y + 1) % total` with `x = 0`; stop with "not found" when the advance
returns to the starting row and this is not the first iteration.  The fuel
argument bounds the iterations; `rows.length + 1` is enough for the
forward break to fire first. -/
def findLoopF (rows : List Row) (q : List Char) :
    Nat → Nat → Nat → Nat → Bool → Option Position
  | 0, _, _, _, _ => none
  | fuel + 1, curY, curX, startY, fs =>
    match (rows.getD curY (Row.new [])).search q curX with
    | some m => some ⟨m, curY⟩
    | none =>
      let nY := (curY + 1) % rows.length
      if fs = false ∧ nY = startY then none
      else findLoopF rows q fuel nY 0 startY false

/-- The shared tail of `find_callback` once the direction is forward: an
empty document reports the error and leaves the state alone; otherwise the
scan starts at `last_match` (default `(0,0)`); a hit becomes the new
`last_match`, a full miss reports "not found" and resets `last_match` to
`(0,0)`. -/
def searchFwdCore (rows : List Row) (q : List Char) (st : SearchSt) :
    SearchSt × FindMsg :=
  if rows.length = 0 then (st, .notFound)
  else
    let anchor := st.lastMatch.getD ⟨0, 0⟩
    match findLoopF rows q (rows.length + 1) anchor.y anchor.x anchor.y true with
    | some p => ({ st with lastMatch := some p }, .found)
    | none => ({ st with lastMatch := some ⟨0, 0⟩ }, .notFound)

/-- `find_callback` on the `Enter` key: direction forward and the anchor
reset to `(0,0)` before the scan. -/
def findEnter (rows : List Row) (q : List Char) (st : SearchSt) :
    SearchSt × FindMsg :=
  searchFwdCore rows q { st with direction := 1, lastMatch := some ⟨0, 0⟩ }

/-- `find_callback` on the `'n'` key: direction forward, anchor left as it
is, then the same scan. -/
def findNextKeyN (rows : List Row) (q : List Char) (st : SearchSt) :
    SearchSt × FindMsg :=
  searchFwdCore rows q { st with direction := 1 }

/-- The row-rebuilding loop of `Editor::replace_current_match`.  State per
grapheme: its index, `current_pos`, and the `replaced` flag.  At
`index == position.x` (not yet replaced) the replacement graphemes are
emitted, `current_pos` jumps by the query's byte length, and the matched
grapheme is dropped; otherwise the grapheme is copied only while
`current_pos` is below the row's byte length.  Returns the rebuilt
grapheme list and the recomputed `len`. -/
def rcmAux (rep : List Grapheme) (qB totB x : Nat) :
    List Grapheme → Nat → Nat → Bool → List Grapheme × Nat
  | [], _, _, _ => ([], 0)
  | g :: rest, idx, cp, done =>
    if idx = x ∧ done = false then
      let res := rcmAux rep qB totB x rest (idx + 1) (cp + qB) true
      (rep ++ res.1, rep.length + res.2)
    else if cp < totB then
      let res := rcmAux rep qB totB x rest (idx + 1) (cp + 1) done
      (g :: res.1, res.2 + 1)
    else
      rcmAux rep qB totB x rest (idx + 1) cp done

/-- `Editor::replace_current_match` restricted to one row: rebuilds the
string and `len` via `rcmAux`, re-runs the tokenizer, and leaves
`display_len` alone (the source never updates it here). -/
def rcmRow (row : Row) (q : List Char) (rep : List Grapheme) (x : Nat) : Row :=
  let res := rcmAux rep (strBytes q).length
    ((row.string.map Grapheme.bytes).flatten).length x row.string 0 0 false
  { row with string := res.1
             len := res.2
             highlighting := updateSyntax (res.1.map Grapheme.c) }

/-- `Editor::replace_current_match` on the document: only the row at
`position.y` is rewritten (guarded by `position.y < rows.len()`). -/
def replaceCurrentMatch (rows : List Row) (q : List Char) (rep : List Grapheme)
    (p : Position) : List Row :=
  if p.y < rows.length then
    rows.set p.y (rcmRow (rows.getD p.y (Row.new [])) q rep p.x)
  else rows

/-- The editor fields touched by `Editor::open` / `Editor::save` and the
surrounding error plumbing in `main` and `run_loop`. -/
structure EditorM where
  rows : List Row
  filename : Option (List Char)
  dirty : Bool
  message : Option (List Char)
deriving DecidableEq, Repr

/-- The editor as built by `Editor::new`: empty document, no filename, not
dirty, empty status message. -/
def EditorM.initial : EditorM := ⟨[], none, false, none⟩

/-- `Editor::open`: the filename field is set first; then
`fs::read_to_string(filename)?` either propagates its error (second
component `some code`) or replaces the rows with one `Row::new` per line
and clears `dirty`. -/
def EditorM.openFile (e : EditorM) (name : List Char)
    (readRes : Except Nat (List (List Grapheme))) : EditorM × Option Nat :=
  let e1 := { e with filename := some name }
  match readRes with
  | .error er => (e1, some er)
  | .ok ls => ({ e1 with rows := ls.map Row.new, dirty := false }, none)

/-- `main`: with a filename argument, `editor.open(&filename)?` propagates
an open failure out of `main`, i.e. the process exits before `run` is ever
called (`Except.error`); otherwise the opened editor runs. -/
def mainStartup (arg : Option (List Char))
    (readRes : Except Nat (List (List Grapheme))) (e : EditorM) :
    Except Nat EditorM :=
  match arg with
  | none => .ok e
  | some name =>
    match e.openFile name readRes with
    | (_, some er) => .error er
    | (e1, none) => .ok e1

/-- The status message `Editor::save` installs on success. -/
def writtenMsg : List Char := "written".toList

/-- The body of `Editor::save` once a filename is present:
`fs::write(name, contents)?` either propagates its error with the editor
unchanged, or clears `dirty` and sets the "written" status message. -/
def EditorM.saveWithName (e : EditorM) (writeRes : Except Nat Unit) :
    EditorM × Option Nat :=
  match writeRes with
  | .error er => (e, some er)
  | .ok _ => ({ e with dirty := false, message := some writtenMsg }, none)

/-- One step of `run_loop` around a Ctrl-S keypress: an `Err` escaping
`process_keypress` is routed to `die`, which terminates the process. -/
inductive LoopStep where
  | cont (e : EditorM)
  | died (code : Nat)
deriving DecidableEq, Repr

/-- `process_keypress` on Ctrl-S (filename present) followed by the
`run_loop` error handling. -/
def processCtrlS (e : EditorM) (writeRes : Except Nat Unit) : LoopStep :=
  match e.saveWithName writeRes with
  | (_, some er) => .died er
  | (e1, none) => .cont e1

/-- Spec-side predicate: the query occurs (as a byte-level substring of the
row text, starting on a grapheme boundary) at grapheme index `i`. -/
def occursAtB (l : List Grapheme) (q : List Char) (i : Nat) : Bool :=
  (strBytes q).isPrefixOf (((l.drop i).map Grapheme.bytes).flatten)

/-- Spec-side search, following the words of the claim for `Row::search`:
the grapheme index of the start of the first occurrence of the query at or
after grapheme position `a`, `none` when there is none. -/
def specSearch (r : Row) (q : List Char) (a : Nat) : Option Nat :=
  ((List.range (r.string.length + 1)).filter
    (fun i => decide (a ≤ i) && occursAtB r.string q i)).head?

/-- Spec-side backward step, following the words of the claim: the
rightmost grapheme index `< x` at which the query occurs in the row. -/
def specBackwardStep (r : Row) (q : List Char) (x : Nat) : Option Nat :=
  ((List.range x).filter (fun i => occursAtB r.string q i)).getLast?

/-- The example document of the spec's test scenarios. -/
def doc3 : List Row :=
  [mkRow "let x = 1;", mkRow "// comment", mkRow "let y = \"hi\";"]

/-- A UTF-8 encoding is never empty. -/
theorem utf8Bytes_ne_nil (n : Nat) : utf8Bytes n ≠ [] := by
  unfold utf8Bytes; split_ifs <;> simp

/-- The byte list of a nonempty string is nonempty. -/
theorem strBytes_ne_nil {q : List Char} (h : q ≠ []) : strBytes q ≠ [] := by
  cases q with
  | nil => exact absurd rfl h
  | cons c cs =>
    simp only [strBytes, List.map_cons, List.flatten_cons]
    intro hcontra
    exact utf8Bytes_ne_nil _ (List.append_eq_nil.mp hcontra).1

/-- `Row::search` returns `None` as soon as the start index exceeds the
cached length (the first guard of the source). -/
theorem Row.search_eq_none_of_lt (r : Row) (q : List Char) (a : Nat)
    (h : r.len < a) : r.search q a = none := by
  unfold Row.search
  rw [if_pos h]

set_option maxHeartbeats 1000000 in
/-- The tokenizer emits exactly one tag per character as long as the text
contains no single quote (the char-literal rule is the only rule that can
emit more tags than it consumes characters). -/
theorem updateSyntaxAux_length :
    ∀ (fuel : Nat) (cs : List Char) (s k : Bool) (p : Option Char),
      cs.length ≤ fuel → squote ∉ cs →
      (updateSyntaxAux fuel cs s k p).length = cs.length := by
  intro fuel
  induction fuel with
  | zero =>
    intro cs s k p hle _
    have : cs = [] := List.eq_nil_of_length_eq_zero (Nat.le_zero.mp hle)
    subst this; rfl
  | succ n ih =>
    intro cs s k p hle hq
    cases cs with
    | nil => rfl
    | cons c rest =>
      have hlen : rest.length ≤ n := by
        simpa [Nat.succ_le_succ_iff] using hle
      have hqr : squote ∉ rest := fun hm => hq (List.mem_cons_of_mem _ hm)
      rw [updateSyntaxAux]
      split_ifs with h1 h2 h3 h4 h5 h6 h7 h8
      · -- in comment, closing */
        obtain ⟨r0, t, rfl⟩ : ∃ r0 t, rest = r0 :: t := by
          cases rest with
          | nil => simp at h2
          | cons r0 t => exact ⟨r0, t, rfl⟩
        have ht : t.length ≤ n := by simp at hlen; omega
        simp only [List.tail_cons, List.length_cons,
          ih t s false (some '/') ht (fun hm => hqr (List.mem_cons_of_mem _ hm))]
      · -- in comment, no closing
        simp only [List.length_cons, ih rest s true (some c) hlen hqr]
      · -- opening /*
        obtain ⟨r0, t, rfl⟩ : ∃ r0 t, rest = r0 :: t := by
          cases rest with
          | nil => simp at h3
          | cons r0 t => exact ⟨r0, t, rfl⟩
        have ht : t.length ≤ n := by simp at hlen; omega
        simp only [List.tail_cons, List.length_cons,
          ih t s true (some '*') ht (fun hm => hqr (List.mem_cons_of_mem _ hm))]
      · -- double quote
        simp only [List.length_cons, ih rest (!s) k (some c) hlen hqr]
      · -- inside string
        simp only [List.length_cons, ih rest s k (some c) hlen hqr]
      · -- char literal: impossible without a single quote
        exact absurd (h6 ▸ List.mem_cons_self c rest) hq
      · -- digit
        simp only [List.length_cons, ih rest s k (some c) hlen hqr]
      · -- line comment
        simp
      · -- word branch
        cases hw : wordAt p c rest with
        | none =>
          dsimp only
          simp only [List.length_cons, ih rest s k (some c) hlen hqr]
        | some w =>
          dsimp only
          have hwshape : w = c :: rest.takeWhile isWordChar := by
            unfold wordAt at hw
            split_ifs at hw
            exact (Option.some.injEq _ _ ▸ hw).symm
          have hw1 : 1 ≤ w.length := by rw [hwshape]; simp
          have hwle : w.length ≤ rest.length + 1 := by
            rw [hwshape]
            simp only [List.length_cons, Nat.succ_le_succ_iff]
            exact (List.takeWhile_sublist _).length_le
          have hdlen : ((c :: rest).drop w.length).length ≤ n := by
            simp only [List.length_drop, List.length_cons]
            omega
          have hdq : squote ∉ (c :: rest).drop w.length :=
            fun hm => hq (List.mem_of_mem_drop hm)
          have hfd : ((c :: rest).drop w.length).length = rest.length + 1 - w.length := by
            simp
          split_ifs with hk1 hk2
          · simp only [List.length_append, List.length_replicate,
              ih _ s k _ hdlen hdq, hfd, List.length_cons]
            omega
          · simp only [List.length_append, List.length_replicate,
              ih _ s k _ hdlen hdq, hfd, List.length_cons]
            omega
          · simp only [List.length_cons, ih rest s k (some c) hlen hqr]

/-- `Row::update_syntax` produces one tag per character on quote-free
text. -/
theorem updateSyntax_length {cs : List Char} (hq : squote ∉ cs) :
    (updateSyntax cs).length = cs.length :=
  updateSyntaxAux_length cs.length cs false false none (Nat.le_refl _) hq

/-- Soundness of `str::rfind`: a returned index is a byte position where
the pattern really is a prefix of the remaining bytes. -/
theorem byteRFindAux_some {q : List Nat} :
    ∀ {hay : List Nat} {i : Nat}, byteRFindAux q hay = some i →
      q.isPrefixOf (hay.drop i) = true := by
  intro hay
  induction hay with
  | nil =>
    intro i h
    rw [byteRFindAux] at h
    split_ifs at h with hp
    · cases h; simpa using hp
  | cons b t ih =>
    intro i h
    rw [byteRFindAux] at h
    cases hr : byteRFindAux q t with
    | some j =>
      rw [hr] at h
      simp only [Option.map_some'] at h
      cases h
      simpa using ih hr
    | none =>
      rw [hr] at h
      simp only [Option.map_none'] at h
      split_ifs at h with hp
      · cases h; simpa using hp

/-- Byte-level `drop` agrees with grapheme-level `drop` when every
grapheme is a single byte. -/
theorem flatten_map_drop :
    ∀ {l : List Grapheme}, (∀ g ∈ l, (Grapheme.bytes g).length = 1) →
      ∀ i, ((l.map Grapheme.bytes).flatten).drop i =
        ((l.drop i).map Grapheme.bytes).flatten := by
  intro l
  induction l with
  | nil => intro _ i; simp
  | cons g t ih =>
    intro h i
    cases i with
    | zero => simp
    | succ j =>
      have hg : (Grapheme.bytes g).length = 1 := h g (List.mem_cons_self _ _)
      obtain ⟨b, hb⟩ : ∃ b, Grapheme.bytes g = [b] := by
        cases hgb : Grapheme.bytes g with
        | nil => rw [hgb] at hg; simp at hg
        | cons b bs =>
          cases bs with
          | nil => exact ⟨b, rfl⟩
          | cons b2 bs2 => rw [hgb] at hg; simp at hg
      simp only [List.map_cons, List.flatten_cons, hb, List.singleton_append,
        List.drop_succ_cons]
      exact ih (fun g' hg' => h g' (List.mem_cons_of_mem _ hg')) j

/-- Removing the grapheme at a valid index removes exactly its width from
the width sum. -/
theorem sum_w_take_drop :
    ∀ {l : List Grapheme} (a : Nat) (ga : Grapheme), l.get? a = some ga →
      (((l.take a ++ l.drop (a + 1)).map Grapheme.w).sum) + ga.w =
        (l.map Grapheme.w).sum := by
  intro l
  induction l with
  | nil => intro a ga h; simp at h
  | cons g t ih =>
    intro a ga h
    cases a with
    | zero =>
      simp only [List.get?_cons_zero, Option.some.injEq] at h
      subst h
      simp [Nat.add_comm]
    | succ b =>
      simp only [List.get?_cons_succ] at h
      have := ih b ga h
      simp only [List.take_succ_cons, List.drop_succ_cons, List.map_cons,
        List.sum_cons, List.cons_append] at *
      omega

/-- Inserting a grapheme adds exactly its width to the width sum. -/
theorem sum_w_insert (l : List Grapheme) (a : Nat) (g : Grapheme) :
    (((l.take a ++ g :: l.drop a).map Grapheme.w).sum) =
      ((l.map Grapheme.w).sum) + g.w := by
  have h := congrArg (fun t => ((t.map Grapheme.w).sum)) (List.take_append_drop a l)
  simp only [List.map_append, List.sum_append] at h
  simp only [List.map_append, List.map_cons, List.sum_append, List.sum_cons]
  omega

/-- Under a global miss hypothesis the forward scan loop of
`find_callback` can only return `none`, whatever the fuel. -/
theorem findLoopF_eq_none (rows : List Row) (q : List Char)
    (hall : ∀ r ∈ rows, ∀ x, r.search q x = none) :
    ∀ (fuel curY curX startY : Nat) (fs : Bool), curY < rows.length →
      findLoopF rows q fuel curY curX startY fs = none := by
  intro fuel
  induction fuel with
  | zero => intro curY curX startY fs _; rfl
  | succ n ih =>
    intro curY curX startY fs hy
    have hmem : rows.getD curY (Row.new []) ∈ rows := by
      rw [List.getD_eq_getElem?_getD, List.getElem?_eq_getElem hy]
      exact List.getElem_mem hy
    rw [findLoopF]
    simp only [hall _ hmem curX]
    split_ifs with hbr
    · rfl
    · exact ih _ 0 startY false (Nat.mod_lt _ (by omega))


/-- The character `é` (U+00E9), a two-byte code point. -/
def eAcute : Char := Char.ofNat 233

/-- The character `中` (U+4E2D), display width 2 in a terminal. -/
def wideChar : Char := Char.ofNat 20013

/-- C1 (counterexample): on the row `ab`, `Row::insert` at index 0 raises
the grapheme count to 3 but leaves the highlight array at its previous
length 2, so `highlights.len() == grapheme_len` does not hold immediately
after this mutation. -/
theorem c1_counterexample :
    ((mkRow "ab").insert 0 (asciiGr 'c')).highlighting.length ≠
      ((mkRow "ab").insert 0 (asciiGr 'c')).len := by decide

/-- C1 (amended): `insert` and `delete` leave the highlight array exactly
as it was before the mutation (the refresh is deferred to the asynchronous
syntax pass), while `split` and `append` re-run the tokenizer and do
restore `highlights.len() = grapheme_len` for well-formed rows whose text
contains no single quote. -/
theorem c1_amended (r r2 : Row) (a : Nat) (g : Grapheme)
    (hw : r.wf) (hw2 : r2.wf)
    (hq : squote ∉ r.chars) (hq2 : squote ∉ r2.chars) :
    (r.insert a g).highlighting = r.highlighting ∧
    (r.delete a).highlighting = r.highlighting ∧
    (r.split a).1.highlighting.length = (r.split a).1.len ∧
    (r.split a).2.highlighting.length = (r.split a).2.len ∧
    (r.append r2).highlighting.length = (r.append r2).len := by
  have hqs : squote ∉ r.string.map Grapheme.c := hq
  have hqs2 : squote ∉ r2.string.map Grapheme.c := hq2
  refine ⟨?_, ?_, ?_, ?_, ?_⟩
  · unfold Row.insert
    split_ifs <;> rfl
  · unfold Row.delete
    split_ifs <;> rfl
  · have hqt : squote ∉ (r.string.take a).map Grapheme.c := by
      rw [List.map_take]
      exact fun hm => hqs (List.take_subset _ _ hm)
    simp only [Row.split]
    rw [updateSyntax_length hqt, List.length_map]
  · have hqd : squote ∉ (r.string.drop a).map Grapheme.c := by
      rw [List.map_drop]
      exact fun hm => hqs (List.drop_subset _ _ hm)
    simp only [Row.split, Row.new]
    rw [updateSyntax_length hqd, List.length_map]
  · have hqa : squote ∉ (r.string ++ r2.string).map Grapheme.c := by
      rw [List.map_append]
      intro hm
      rcases List.mem_append.mp hm with hm1 | hm2
      · exact hqs hm1
      · exact hqs2 hm2
    simp only [Row.append]
    rw [updateSyntax_length hqa, List.length_map, List.length_append]
    have h1 : r.len = r.string.length := hw
    have h2 : r2.len = r2.string.length := hw2
    omega

/-- C1 (witness): the amended statement evaluated on the rows `ab` and
`cd` at index 1. -/
theorem c1_amended_witness :
    ((mkRow "ab").insert 1 (asciiGr 'z')).highlighting = (mkRow "ab").highlighting ∧
    ((mkRow "ab").delete 1).highlighting = (mkRow "ab").highlighting ∧
    ((mkRow "ab").split 1).1.highlighting.length = ((mkRow "ab").split 1).1.len ∧
    ((mkRow "ab").split 1).2.highlighting.length = ((mkRow "ab").split 1).2.len ∧
    ((mkRow "ab").append (mkRow "cd")).highlighting.length =
      ((mkRow "ab").append (mkRow "cd")).len :=
  c1_amended (mkRow "ab") (mkRow "cd") 1 (asciiGr 'z') rfl rfl (by decide) (by decide)

/-- C2 (code bug): on the row `éx` (two graphemes, the first two bytes
long), searching `x` from grapheme 0 returns 2 — the byte offset of the
match reinterpreted as a grapheme count — while the first occurrence of
`x` at or after grapheme 0 starts at grapheme index 1. -/
theorem c2_code_bug :
    (Row.new [⟨eAcute, 1⟩, asciiGr 'x']).search ("x".toList) 0 = some 2 ∧
    specSearch (Row.new [⟨eAcute, 1⟩, asciiGr 'x']) ("x".toList) 0 = some 1 := by
  decide

/-- C3 (code bug): on the three-row example document the first `Enter`
search for `let` does find row 0 column 0, but requesting the next match
with `'n'` re-finds row 0 column 0 (the anchor stores the match position
itself and the forward row search is inclusive of its start index), not
row 2 column 0 as the claim states. -/
theorem c3_code_bug :
    (findEnter doc3 ("let".toList) ⟨none, 1⟩).1.lastMatch = some ⟨0, 0⟩ ∧
    (findNextKeyN doc3 ("let".toList)
      (findEnter doc3 ("let".toList) ⟨none, 1⟩).1).1.lastMatch = some ⟨0, 0⟩ ∧
    (findNextKeyN doc3 ("let".toList)
      (findEnter doc3 ("let".toList) ⟨none, 1⟩).1).1.lastMatch ≠ some ⟨0, 2⟩ := by
  decide

/-- C4 (counterexample): a confirmed replacement of `let` by `var` on the
example document does not produce the claimed whole-document result: the
code rewrites only the anchor row, and mangles it. -/
theorem c4_counterexample :
    (replaceCurrentMatch doc3 ("let".toList) (grs "var") ⟨0, 0⟩).map
        (fun r => r.string.map Grapheme.c) ≠
      ["var x = 1;".toList, "// comment".toList, "var y = \"hi\";".toList] := by
  decide

/-- C4 (amended): `replace_current_match` rewrites only the row at the
anchor position, and on the example it substitutes the single anchor
occurrence while continuing to copy the matched graphemes and dropping the
final graphemes of the row (byte lengths used as grapheme counts), turning
row 0 into `varet x = `; no whole-document pass and no total count
exist. -/
theorem c4_amended (rows : List Row) (q : List Char) (rep : List Grapheme)
    (p : Position) (i : Nat) (hi : i ≠ p.y) :
    (replaceCurrentMatch rows q rep p).get? i = rows.get? i ∧
    (replaceCurrentMatch doc3 ("let".toList) (grs "var") ⟨0, 0⟩).map
        (fun r => r.string.map Grapheme.c) =
      ["varet x = ".toList, "// comment".toList, "let y = \"hi\";".toList] := by
  constructor
  · unfold replaceCurrentMatch
    split_ifs with hp
    · simp [List.get?_eq_getElem?, List.getElem?_set_ne (Ne.symm hi)]
    · rfl
  · decide

/-- C4 (witness): the amended statement evaluated at row index 1 against
the anchor `(0,0)` on the example document. -/
theorem c4_amended_witness :
    (replaceCurrentMatch doc3 ("let".toList) (grs "var") ⟨0, 0⟩).get? 1 =
      doc3.get? 1 ∧
    (replaceCurrentMatch doc3 ("let".toList) (grs "var") ⟨0, 0⟩).map
        (fun r => r.string.map Grapheme.c) =
      ["varet x = ".toList, "// comment".toList, "let y = \"hi\";".toList] :=
  c4_amended doc3 ("let".toList) (grs "var") ⟨0, 0⟩ 1 (by decide)

/-- C5 (confirmed): when the query occurs nowhere in a nonempty document,
the forward search pass reports "not found" and resets the anchor
`last_match` to `(0,0)`, so the next attempt starts from the beginning. -/
theorem c5_full_lap_not_found (rows : List Row) (q : List Char) (st : SearchSt)
    (hne : 0 < rows.length)
    (hanch : (st.lastMatch.getD ⟨0, 0⟩).y < rows.length)
    (hall : ∀ r ∈ rows, ∀ x, r.search q x = none) :
    (findNextKeyN rows q st).1.lastMatch = some ⟨0, 0⟩ ∧
    (findNextKeyN rows q st).2 = FindMsg.notFound := by
  unfold findNextKeyN searchFwdCore
  rw [if_neg (by omega)]
  dsimp only
  rw [findLoopF_eq_none rows q hall _ _ _ _ _ hanch]
  exact ⟨rfl, rfl⟩

/-- C5 (witness): the single-row document `ab` searched for `z`. -/
theorem c5_full_lap_not_found_witness :
    (findNextKeyN [mkRow "ab"] ("z".toList) ⟨none, 1⟩).1.lastMatch = some ⟨0, 0⟩ ∧
    (findNextKeyN [mkRow "ab"] ("z".toList) ⟨none, 1⟩).2 = FindMsg.notFound := by
  refine c5_full_lap_not_found _ _ _ (by decide) (by decide) ?_
  intro r hr x
  have hr' : r = mkRow "ab" := by simpa using hr
  subst hr'
  rcases Nat.lt_or_ge x 3 with hx | hx
  · interval_cases x <;> decide
  · refine Row.search_eq_none_of_lt _ _ _ ?_
    have h2 : (mkRow "ab").len = 2 := rfl
    omega

/-- C6 (counterexample): on the row `xab` with `x = 3` and query `a`, the
backward step returns 2, while the rightmost occurrence of `a` with start
strictly below 3 is at grapheme index 1 — the code searches only the first
`x - 1` graphemes and returns the rfind byte index plus one. -/
theorem c6_counterexample :
    backwardRowSearch (mkRow "xab") ("a".toList) 3 = some 2 ∧
    specBackwardStep (mkRow "xab") ("a".toList) 3 = some 1 := by
  decide

/-- C6 (amended): the backward step searches only the prefix of the first
`x - 1` graphemes of the current row and reports the byte index of a match
in it plus one: any reported `j` is at least 1 and, on single-byte rows,
the query occurs at grapheme index `j - 1` of that prefix.  With `x = 0` —
the state in which every previous row is visited after the wrap — the
searched prefix is empty, so no match is ever reported there for a
nonempty query. -/
theorem c6_amended (r : Row) (q : List Char) (x j : Nat) (hq : q ≠ [])
    (hsb : ∀ g ∈ r.string, (Grapheme.bytes g).length = 1) :
    backwardRowSearch r q 0 = none ∧
    (backwardRowSearch r q x = some j →
      1 ≤ j ∧ occursAtB (r.string.take (x - 1)) q (j - 1) = true) := by
  constructor
  · simp only [backwardRowSearch]
    rw [if_neg (by omega)]
    cases hsb' : strBytes q with
    | nil => exact absurd hsb' (strBytes_ne_nil hq)
    | cons b bs =>
      simp [byteRFindAux, List.isPrefixOf]
  · intro h
    simp only [backwardRowSearch] at h
    have hst : (if 0 < x then x - 1 else 0) = x - 1 := by
      split_ifs <;> omega
    rw [hst] at h
    rcases Option.map_eq_some'.mp h with ⟨i, hi, hij⟩
    refine ⟨by omega, ?_⟩
    have hpre := byteRFindAux_some hi
    rw [flatten_map_drop (fun g hg => hsb g (List.take_subset _ _ hg)) i] at hpre
    have hji : j - 1 = i := by omega
    rw [hji]
    exact hpre

/-- C6 (witness): the amended statement evaluated on the row `xab` with
query `a`, `x = 3`, `j = 2`. -/
theorem c6_amended_witness :
    backwardRowSearch (mkRow "xab") ("a".toList) 0 = none ∧
    (backwardRowSearch (mkRow "xab") ("a".toList) 3 = some 2 →
      1 ≤ 2 ∧
      occursAtB ((mkRow "xab").string.take (3 - 1)) ("a".toList) (2 - 1) = true) :=
  c6_amended (mkRow "xab") ("a".toList) 3 2 (by decide) (by decide)

/-- C7 (confirmed): splitting a well-formed row at a grapheme boundary
within the row and appending the returned second half back onto the first
half reproduces the original text and grapheme length exactly. -/
theorem c7_split_append_roundtrip (r : Row) (a : Nat) (hw : r.wf) (ha : a ≤ r.len) :
    ((r.split a).1.append (r.split a).2).string = r.string ∧
    ((r.split a).1.append (r.split a).2).len = r.len := by
  constructor
  · simp [Row.split, Row.append, Row.new]
  · simp only [Row.split, Row.append, Row.new, List.length_take, List.length_drop]
    have h1 : r.len = r.string.length := hw
    omega

/-- C7 (witness): the round trip on the row `ab` split at 1. -/
theorem c7_split_append_roundtrip_witness :
    (((mkRow "ab").split 1).1.append ((mkRow "ab").split 1).2).string =
      (mkRow "ab").string ∧
    (((mkRow "ab").split 1).1.append ((mkRow "ab").split 1).2).len =
      (mkRow "ab").len :=
  c7_split_append_roundtrip (mkRow "ab") 1 rfl (by decide)

/-- C8 (counterexample): deleting the width-1 grapheme `a` and inserting
the width-2 character `中` at the same index restores the grapheme count
but not the display width, refuting the claim for arbitrary replacement
characters. -/
theorem c8_counterexample :
    (((Row.new [asciiGr 'a']).delete 0).insert 0 ⟨wideChar, 2⟩).display_len ≠
      (Row.new [asciiGr 'a']).display_len := by
  decide

/-- C8 (amended): for a well-formed row and a valid index,
`delete(at); insert(at, c)` always restores `grapheme_len`, and restores
`display_width` exactly when the inserted character has the same display
width as the deleted grapheme. -/
theorem c8_amended (r : Row) (a : Nat) (g ga : Grapheme)
    (hw : r.wf) (hww : r.wfW) (ha : a < r.len)
    (hget : r.string.get? a = some ga) :
    ((r.delete a).insert a g).len = r.len ∧
    (g.w = ga.w → ((r.delete a).insert a g).display_len = r.display_len) := by
  have h1 : r.len = r.string.length := hw
  have h2 : r.display_len = (r.string.map Grapheme.w).sum := hww
  have hn : a < r.string.length := by omega
  have hsum := sum_w_take_drop a ga hget
  have hna : ¬ r.len ≤ a := by omega
  have hds : (r.delete a).string = r.string.take a ++ r.string.drop (a + 1) := by
    unfold Row.delete
    rw [if_neg hna]
  have hdl : (r.delete a).len =
      (r.string.take a ++ r.string.drop (a + 1)).length := by
    unfold Row.delete
    rw [if_neg hna]
  have hdw : (r.delete a).display_len =
      ((r.string.take a ++ r.string.drop (a + 1)).map Grapheme.w).sum := by
    unfold Row.delete
    rw [if_neg hna]
  by_cases hc : (r.delete a).len ≤ a
  · -- append branch: after the delete, `at` is the end of the row
    have hil : ((r.delete a).insert a g).len = (r.delete a).len + 1 := by
      unfold Row.insert
      rw [if_pos hc]
    have hiw : ((r.delete a).insert a g).display_len =
        (r.delete a).display_len + g.w := by
      unfold Row.insert
      rw [if_pos hc]
    constructor
    · rw [hil, hdl]
      simp only [List.length_append, List.length_take, List.length_drop]
      omega
    · intro hgw
      rw [hiw, hdw]
      omega
  · -- rebuild branch with a valid insertion index
    have hlt : a < (r.delete a).string.length := by
      rw [hds]
      rw [hdl] at hc
      simp only [List.length_append, List.length_take, List.length_drop] at hc ⊢
      omega
    have hil : ((r.delete a).insert a g).len =
        ((r.delete a).string.take a ++ g :: (r.delete a).string.drop a).length := by
      unfold Row.insert
      rw [if_neg hc, if_pos hlt]
    have hiw : ((r.delete a).insert a g).display_len =
        (((r.delete a).string.take a ++
          g :: (r.delete a).string.drop a).map Grapheme.w).sum := by
      unfold Row.insert
      rw [if_neg hc, if_pos hlt]
    constructor
    · rw [hil, hds]
      simp only [List.length_append, List.length_take, List.length_drop,
        List.length_cons]
      omega
    · intro hgw
      rw [hiw, hds, sum_w_insert]
      omega

/-- C8 (witness): the amended statement on the row `ab`, deleting and
re-inserting at index 0 with an equal-width character. -/
theorem c8_amended_witness :
    (((mkRow "ab").delete 0).insert 0 (asciiGr 'z')).len = (mkRow "ab").len ∧
    ((asciiGr 'z').w = (asciiGr 'a').w →
      (((mkRow "ab").delete 0).insert 0 (asciiGr 'z')).display_len =
        (mkRow "ab").display_len) :=
  c8_amended (mkRow "ab") 0 (asciiGr 'z') (asciiGr 'a') rfl rfl (by decide) (by decide)

/-- C9 (counterexample): with a concrete failing read, `main` propagates
the open error and the process exits instead of continuing with a status
message; with a concrete failing write, the Ctrl-S path reaches `die`. -/
theorem c9_counterexample :
    mainStartup (some ("a.txt".toList)) (Except.error 2) EditorM.initial =
      Except.error 2 ∧
    processCtrlS { EditorM.initial with filename := some ("a.txt".toList) }
      (Except.error 5) = LoopStep.died 5 :=
  ⟨rfl, rfl⟩

/-- C9 (amended): an open failure at startup propagates out of `main`
(the process terminates) with the filename already updated, the rows and
the status message untouched; a save failure with a filename present
propagates to the main loop's `die` handler (the process terminates) with
the editor state unchanged.  Neither failure is reported via the status
message and the editor does not keep running. -/
theorem c9_amended (e : EditorM) (name : List Char) (er : Nat) :
    mainStartup (some name) (Except.error er) e = Except.error er ∧
    (e.openFile name (Except.error er)).1.rows = e.rows ∧
    (e.openFile name (Except.error er)).1.filename = some name ∧
    (e.openFile name (Except.error er)).1.message = e.message ∧
    processCtrlS e (Except.error er) = LoopStep.died er ∧
    (e.saveWithName (Except.error er)).1 = e :=
  ⟨rfl, rfl, rfl, rfl, rfl, rfl⟩

/-- C10 (confirmed): for every row whose cached length matches its
grapheme count, a search starting strictly beyond the grapheme count
returns `None` (the guard on the first line of `Row::search`). -/
theorem c10_search_out_of_range (r : Row) (q : List Char) (a : Nat)
    (hw : r.wf) (h : r.string.length < a) : r.search q a = none := by
  refine Row.search_eq_none_of_lt r q a ?_
  have h1 : r.len = r.string.length := hw
  omega

/-- C10 (witness): searching the two-grapheme row `ab` from index 5. -/
theorem c10_search_out_of_range_witness :
    (mkRow "ab").search ("x".toList) 5 = none :=
  c10_search_out_of_range (mkRow "ab") ("x".toList) 5 rfl (by decide)
